import Mathlib

/-!
Verification of the context-budgeting and extraction core of the repository
(`smartTruncateReadme`, `smartTruncatePython`, `truncateFilesByBudget`).

JavaScript strings are modelled as `List Char` (one entry per UTF-16 code
unit; every character appearing in this development is a single code unit).
JavaScript numbers that hold character counts or budgets are modelled as
`Int`; the two fractional divisions performed by the source
(`remaining / 2` inside `String.prototype.slice`, which truncates its
argument toward zero) are modelled with `Int.tdiv`, and `Math.floor` of a
division is modelled with `Int.ediv`.
-/

/-- Clamp a JavaScript `slice` index to `[0, len]`: negative indices count
from the end of the string, as specified by ECMAScript. -/
def jsClampIdx (len : Nat) (i : Int) : Nat :=
  if i < 0 then (max ((len : Int) + i) 0).toNat else min i.toNat len

/-- Model of `l.slice(a, b)` of ECMAScript (for integral arguments). -/
def jsSlice {α : Type} (l : List α) (a b : Int) : List α :=
  (l.take (jsClampIdx l.length b)).drop (jsClampIdx l.length a)

/-- Model of `l.slice(a)` of ECMAScript: slice from `a` to the end. -/
def jsSliceFrom {α : Type} (l : List α) (a : Int) : List α :=
  jsSlice l a (l.length : Int)

/-- Model of `Array.prototype.join(sep)` of ECMAScript. -/
def jsJoin {α : Type} (sep : List α) : List (List α) → List α
  | [] => []
  | [x] => x
  | x :: y :: ys => x ++ sep ++ jsJoin sep (y :: ys)

/-- Sum of the lengths of a list of strings. -/
def sumLens {α : Type} (l : List (List α)) : Nat :=
  (l.map List.length).sum

/-- Substring test, modelling `String.prototype.includes`. -/
def jsIncludes (pat : List Char) : List Char → Bool
  | [] => pat.isEmpty
  | c :: rest => pat.isPrefixOf (c :: rest) || jsIncludes pat rest

/-- The WhiteSpace and LineTerminator code points recognized by the `\s`
character class and by `String.prototype.trim` in ECMAScript. -/
def isJsSpace (c : Char) : Bool :=
  c = ' ' || c = '\t' || c = '\n' || c = '\r' || c = '\x0b' || c = '\x0c' ||
  c.toNat = 0xa0 || c.toNat = 0x1680 ||
  (0x2000 <= c.toNat && c.toNat <= 0x200a) ||
  c.toNat = 0x2028 || c.toNat = 0x2029 || c.toNat = 0x202f ||
  c.toNat = 0x205f || c.toNat = 0x3000 || c.toNat = 0xfeff

/-- The LineTerminator code points excluded by `.` in an ECMAScript regex. -/
def isLineTerm (c : Char) : Bool :=
  c = '\n' || c = '\r' || c.toNat = 0x2028 || c.toNat = 0x2029

/-- A line whose `trim()` is empty, i.e. all of whose characters are
whitespace. -/
def isBlankLine (l : List Char) : Bool :=
  l.all isJsSpace

/-- Match a literal at the start of the input, returning the rest. -/
def litAt (pat : List Char) (s : List Char) : Option (List Char) :=
  if pat.isPrefixOf s then some (s.drop pat.length) else none

/-- Match `\s+` greedily at the start of the input (safe here because in
every pattern below the character after `\s+`/`\s*` is not whitespace). -/
def wsPlus : List Char → Option (List Char)
  | [] => none
  | c :: r => if isJsSpace c then some (r.dropWhile isJsSpace) else none

/-- Match `\s*` greedily at the start of the input. -/
def wsStar (s : List Char) : List Char :=
  s.dropWhile isJsSpace

/-- Match the character class `["']` at the start of the input. -/
def quoteAt : List Char → Option (List Char)
  | [] => none
  | c :: r => if c = '"' || c = '\'' then some r else none

def kwImport : List Char := "import ".data
def kwFrom : List Char := "from ".data
def kwImportMid : List Char := " import ".data

/-- After the first (mandatory) `.`-matched character, recognize
`.* import ` where `.` excludes line terminators. -/
def dotStarImportMid : List Char → Bool
  | [] => false
  | d :: r => kwImportMid.isPrefixOf (d :: r) || (!isLineTerm d && dotStarImportMid r)

/-- Recognize `.+ import ` (at least one `.`-matched character followed by
the literal ` import `) at the start of the input. -/
def dotPlusImportMid : List Char → Bool
  | [] => false
  | c :: r => !isLineTerm c && dotStarImportMid r

/-- The test `/^(import |from .+ import )/.test(line)` of the source. -/
def isImportLine (l : List Char) : Bool :=
  kwImport.isPrefixOf l || (kwFrom.isPrefixOf l && dotPlusImportMid (l.drop 5))

def kwIf : List Char := "if".data
def kwName : List Char := "__name__".data
def kwEq : List Char := "==".data
def kwMain : List Char := "__main__".data

/-- The regex `if\s+__name__\s*==\s*["']__main__["']` matched at the start
of the input. -/
def mainGuardAt (s : List Char) : Bool :=
  (do
    let s1 ← litAt kwIf s
    let s2 ← wsPlus s1
    let s3 ← litAt kwName s2
    let s4 ← litAt kwEq (wsStar s3)
    let s5 ← quoteAt (wsStar s4)
    let s6 ← litAt kwMain s5
    let _ ← quoteAt s6
    pure ()).isSome

def kwDef : List Char := "def".data
def kwLParen : List Char := "(".data
def nmMain : List Char := "main".data
def nmRun : List Char := "run".data
def nmCli : List Char := "cli".data
def nmApp : List Char := "app".data
def nmStart : List Char := "start".data

/-- The alternation `(main|run|cli|app|start)` at the start of the input.
The five names start with pairwise distinct characters, so at most one
alternative applies at a given position and first-match order is exact. -/
def entryFnName (s : List Char) : Option (List Char) :=
  match litAt nmMain s with
  | some r => some r
  | none =>
  match litAt nmRun s with
  | some r => some r
  | none =>
  match litAt nmCli s with
  | some r => some r
  | none =>
  match litAt nmApp s with
  | some r => some r
  | none => litAt nmStart s

/-- The regex `def\s+(main|run|cli|app|start)\s*\(` matched at the start of
the input. -/
def defEntryAt (s : List Char) : Bool :=
  (do
    let s1 ← litAt kwDef s
    let s2 ← wsPlus s1
    let s3 ← entryFnName s2
    let _ ← litAt kwLParen (wsStar s3)
    pure ()).isSome

/-- Unanchored regex test: try the anchored matcher at every position. -/
def anyPos (p : List Char → Bool) : List Char → Bool
  | [] => p []
  | c :: r => p (c :: r) || anyPos p r

def kwAddCommand : List Char := ".add_command(".data
def kwClickCommand : List Char := "@click.command".data
def kwClickGroup : List Char := "@click.group".data
def kwArgparse : List Char := "argparse.ArgumentParser".data

/-- One of the five `entryPatterns` of the source tests true on the line.
The source tries the patterns in order and breaks at the first success;
only the disjunction is observable. -/
def isEntryLine (l : List Char) : Bool :=
  anyPos mainGuardAt l || anyPos defEntryAt l ||
  jsIncludes kwAddCommand l || jsIncludes kwClickCommand l ||
  jsIncludes kwClickGroup l || jsIncludes kwArgparse l

/-!
Model of `smartTruncatePython` (src/unnamed/part_000, lines 64-149).
-/

/-- The elision marker pushed by `smartTruncatePython`
(the literal `"\n# ... (中间代码省略) ...\n"`, 20 code units). -/
def pyElision : List Char := "\n# ... (中间代码省略) ...\n".data

/-- One step of the import-collection loop of lines 74-84 of the source:
`acc` is `importLines` so far, `e` is `importEnd`, `i` the current index. -/
def collectImportsGo : List (List Char) → Nat → List (List Char) → Nat →
    List (List Char) × Nat
  | [], _, acc, e => (acc, e)
  | l :: rest, i, acc, e =>
    if isImportLine l then collectImportsGo rest (i + 1) (acc ++ [l]) i
    else if !acc.isEmpty && isBlankLine l then collectImportsGo rest (i + 1) acc e
    else if !acc.isEmpty then (acc, e)
    else collectImportsGo rest (i + 1) acc e

/-- Values of `importLines` and `importEnd` as computed by lines 72-84 of the source.
Note that the loop keeps scanning (without collecting) while no import
line has been seen yet, and that `importEnd` starts at `0`. -/
def collectImports (lines : List (List Char)) : List (List Char) × Nat :=
  collectImportsGo lines 0 [] 0

/-- The backward scan of lines 96-105 of the source: the first line index
matching an entry pattern when scanning from the end of the file (the tail
of the list is searched before the head), `none` for `entryStart = -1`. -/
def findEntry : List (List Char) → Option Nat
  | [] => none
  | l :: rest =>
    match findEntry rest with
    | some j => some (j + 1)
    | none => if isEntryLine l then some 0 else none

/-- Elements of `result` pushed by the entry-point branch, lines 118-134 of
the source (`e` is `entryStart`, guaranteed `≠ -1` in this branch). -/
def composeEntry (lines : List (List Char)) (importEnd : Nat) (e : Nat)
    (maxLen currentLen : Int) : List (List Char) :=
  let contextStart : Int := max ((e : Int) - 20) ((importEnd : Int) + 1)
  let entrySection := jsJoin ['\n'] (jsSliceFrom lines contextStart)
  if currentLen + (entrySection.length : Int) ≤ maxLen then
    (if (importEnd : Int) + 1 < contextStart then [pyElision] else []) ++ [entrySection]
  else
    let remaining := maxLen - currentLen - 50
    if 0 < remaining then [pyElision, jsSliceFrom entrySection (-remaining)]
    else []

/-- Elements of `result` pushed by the no-entry-point branch, lines 136-145 of
the source (`middleContent` is the join of the lines after `importEnd`).
The source divides `remaining` by `2` inside `slice`, whose coercion
truncates toward zero, hence `Int.tdiv`. -/
def composeNoEntry (middleContent : List Char) (maxLen currentLen : Int) :
    List (List Char) :=
  let remaining := maxLen - currentLen
  if (middleContent.length : Int) ≤ remaining then [middleContent]
  else [jsSlice middleContent 0 (Int.tdiv remaining 2), pyElision,
        jsSliceFrom middleContent (Int.tdiv (-remaining) 2)]

/-- Value `[importSection]` when `importSection.length < Math.floor(maxLen / 2)`
(lines 108-115 of the source), else nothing. -/
def pythonFront (importSection : List Char) (maxLen : Int) : List (List Char) :=
  if (importSection.length : Int) < Int.ediv maxLen 2 then [importSection] else []

/-- Value of `currentLen` after the import section has (or has not) been pushed. -/
def pythonCurrentLen (importSection : List Char) (maxLen : Int) : Int :=
  if (importSection.length : Int) < Int.ediv maxLen 2 then
    (importSection.length : Int)
  else 0

/-- The truncating branch of `smartTruncatePython` (everything after the
identity early return). -/
def pythonTruncate (content : List Char) (maxLen : Int) : List Char :=
  let lines := content.splitOn '\n'
  let imp := collectImports lines
  let importSection := jsJoin ['\n'] imp.1
  let rest :=
    match findEntry lines with
    | some e => composeEntry lines imp.2 e maxLen
        (pythonCurrentLen importSection maxLen)
    | none => composeNoEntry (jsJoin ['\n'] (lines.drop (imp.2 + 1))) maxLen
        (pythonCurrentLen importSection maxLen)
  jsJoin ['\n'] (pythonFront importSection maxLen ++ rest)

/-- Model of `smartTruncatePython(content, maxLen)`, lines 64-149 of the source.
`!content` is true in JavaScript exactly for the empty string. -/
def smartTruncatePython (content : List Char) (maxLen : Int) : List Char :=
  if content = [] ∨ (content.length : Int) ≤ maxLen then content
  else pythonTruncate content maxLen

/-!
Model of `smartTruncateReadme` (src/unnamed/part_000, lines 18-56).

The four `prioritySections` regexes are PCRE-style patterns with
lookaheads; their match lists cannot reasonably be given a shallow
embedding, so the function below is parameterized by `matchess`, the list
of the four values of `content.match(regex) || []` in priority order.
Every theorem about `smartTruncateReadme` quantifies over `matchess`, so
each holds in particular for the actual regex output.
-/

/-- Separator of `extracted.join("\n\n...\n\n")` (7 code units). -/
def readmeSep : List Char := "\n\n...\n\n".data

/-- The inner loop of lines 42-52 of the source: process the matches of
one regex against the remaining budget, returning the kept (truncated)
fragments and the updated budget. -/
def readmeInner (intro : List Char) : List (List Char) → Int →
    List (List Char) × Int
  | [], b => ([], b)
  | m :: rest, b =>
    if b ≤ 0 then ([], b)
    else if jsIncludes m intro then readmeInner intro rest b
    else
      let t := jsSlice m 0 b
      if 100 < t.length then
        let p := readmeInner intro rest (b - (t.length : Int))
        (t :: p.1, p.2)
      else readmeInner intro rest b

/-- The outer loop of lines 38-53 of the source: process each regex's
match list in priority order while budget remains. -/
def readmeOuter (intro : List Char) : List (List (List Char)) → Int →
    List (List Char) × Int
  | [], b => ([], b)
  | ms :: rest, b =>
    if b ≤ 0 then ([], b)
    else
      let p := readmeInner intro ms b
      let q := readmeOuter intro rest p.2
      (p.1 ++ q.1, q.2)

/-- Model of `smartTruncateReadme(content, maxLen)`, lines 18-56 of the source,
parameterized by the regex-match oracle `matchess` (see above). -/
def smartTruncateReadme (content : List Char) (maxLen : Int)
    (matchess : List (List (List Char))) : List Char :=
  if content = [] ∨ (content.length : Int) ≤ maxLen then content
  else
    let intro := jsSlice content 0 500
    let frags := (readmeOuter intro matchess (maxLen - (intro.length : Int))).1
    jsJoin readmeSep (intro :: frags)

/-!
Model of `truncateFilesByBudget` (src/unnamed/part_000, lines 158-178).

`Object.entries` enumerates an object's string keys in insertion order,
so a file mapping is modelled as an association list of
(name, content) pairs. `files.sort((a, b) => a[1].length - b[1].length)`
is, per the ECMAScript specification, a stable sort by ascending content
length; a stable sort with respect to a consistent comparator has a unique
result, so it is modelled by a stable insertion sort.
-/

/-- Insert into a sorted list, before the first element that is not
`le`-below the inserted one (this places an element before equal ones,
which is what stability requires when folding from the right). -/
def stableInsert {α : Type} (le : α → α → Bool) (x : α) : List α → List α
  | [] => [x]
  | y :: ys => if le x y then x :: y :: ys else y :: stableInsert le x ys

/-- Stable insertion sort. -/
def stableSort {α : Type} (le : α → α → Bool) : List α → List α
  | [] => []
  | x :: xs => stableInsert le x (stableSort le xs)

/-- Ascending stable sort by content length (line 163 of the source). -/
def sortByLen (files : List (List Char × List Char)) :
    List (List Char × List Char) :=
  stableSort (fun a b => a.2.length ≤ b.2.length) files

/-- The allocation loop of lines 169-175 of the source. `T = none` models
an absent `truncateFn` argument, in which case the excerpt is
`content.slice(0, budget)`. -/
def truncGo (T : Option (List Char → Int → List Char)) (pfb : Int) :
    List (List Char × List Char) → Int → List (List Char × List Char)
  | [], _ => []
  | (name, c) :: rest, remaining =>
    if remaining ≤ 0 then []
    else
      let budget := min remaining (max pfb 500)
      let ex := match T with
        | some f => f c budget
        | none => jsSlice c 0 budget
      (name, ex) :: truncGo T pfb rest (remaining - (ex.length : Int))

/-- Model of `truncateFilesByBudget(fileContents, totalBudget, truncateFn)`,
lines 158-178 of the source. -/
def truncateFilesByBudget (fileContents : List (List Char × List Char))
    (totalBudget : Int) (T : Option (List Char → Int → List Char)) :
    List (List Char × List Char) :=
  if fileContents = [] then []
  else
    let files := sortByLen fileContents
    truncGo T (Int.ediv totalBudget (files.length : Int)) files totalBudget

/-!
Concrete 50-line source file realizing the example scenario of the
specification: five import lines at the top, a function definition
matching an entry signature at line 30 (1-based), and an executable
guard line at line 48; its total length exceeds the budget of 800.
-/

/-- Lines 1-50 of the example source file (index 0 is line 1). -/
def exLines : List (List Char) := [
  "import os".data,
  "import sys".data,
  "import re".data,
  "import json".data,
  "import math".data,
  "v06 = 100600600606".data,
  "v07 = 100600600607".data,
  "v08 = 100600600608".data,
  "v09 = 100600600609".data,
  "SENTINEL_LINE_TEN = 1010101010".data,
  "v11 = 100600600611".data,
  "v12 = 100600600612".data,
  "v13 = 100600600613".data,
  "v14 = 100600600614".data,
  "v15 = 100600600615".data,
  "v16 = 100600600616".data,
  "v17 = 100600600617".data,
  "v18 = 100600600618".data,
  "v19 = 100600600619".data,
  "v20 = 100600600620".data,
  "v21 = 100600600621".data,
  "v22 = 100600600622".data,
  "v23 = 100600600623".data,
  "v24 = 100600600624".data,
  "v25 = 100600600625".data,
  "v26 = 100600600626".data,
  "v27 = 100600600627".data,
  "v28 = 100600600628".data,
  "v29 = 100600600629".data,
  "def run():".data,
  "    w31 = 31062".data,
  "    w32 = 31063".data,
  "    w33 = 31064".data,
  "    w34 = 31065".data,
  "    w35 = 31066".data,
  "    w36 = 31067".data,
  "    w37 = 31068".data,
  "    w38 = 31069".data,
  "    w39 = 31070".data,
  "    w40 = 31071".data,
  "    w41 = 31072".data,
  "    w42 = 31073".data,
  "    w43 = 31074".data,
  "    w44 = 31075".data,
  "    w45 = 31076".data,
  "    w46 = 31077".data,
  "    w47 = 31078".data,
  "if __name__ == \"__main__\": run()".data,
  "# tail line 49".data,
  "# tail line 50".data
]

/-- The example source file, its lines joined by newlines. -/
def exContent : List Char := jsJoin ['\n'] exLines

/-- Line 10 (1-based) of the example file, a sentinel occurring
nowhere else in the file. -/
def exLine10 : List Char := "SENTINEL_LINE_TEN = 1010101010".data

/-!
Helper lemmas about the ECMAScript string model.
-/

set_option maxRecDepth 1000000

theorem jsSlice_zero {α : Type} (l : List α) (b : Int) :
    jsSlice l 0 b = l.take (jsClampIdx l.length b) := by
  simp [jsSlice, jsClampIdx]

theorem jsClampIdx_of_nonneg (len : Nat) (b : Int) (hb : 0 ≤ b) :
    jsClampIdx len b = min b.toNat len := by
  simp [jsClampIdx]
  omega

theorem jsSlice_zero_length_le (l : List α) (b : Int) (hb : 0 ≤ b) :
    ((jsSlice l 0 b).length : Int) ≤ b := by
  rw [jsSlice_zero, jsClampIdx_of_nonneg _ _ hb]
  simp
  omega

theorem jsSlice_zero_of_le (l : List α) (b : Int)
    (h : (l.length : Int) ≤ b) : jsSlice l 0 b = l := by
  have hb : 0 ≤ b := le_trans (by positivity) h
  rw [jsSlice_zero, jsClampIdx_of_nonneg _ _ hb]
  have : min b.toNat l.length = l.length := by omega
  rw [this, List.take_length]

theorem jsSliceFrom_eq_drop {α : Type} (l : List α) (a : Int) :
    jsSliceFrom l a = l.drop (jsClampIdx l.length a) := by
  have hend : jsClampIdx l.length (l.length : Int) = l.length := by
    simp [jsClampIdx]
  simp [jsSliceFrom, jsSlice, hend]

theorem jsSliceFrom_neg_length_le (l : List α) (d : Int) (hd : 0 < d) :
    ((jsSliceFrom l (-d)).length : Int) ≤ d := by
  rw [jsSliceFrom_eq_drop]
  have hneg : (-d) < 0 := by omega
  rw [jsClampIdx, if_pos hneg]
  simp only [List.length_drop]
  omega

theorem sumLens_nil {α : Type} : sumLens ([] : List (List α)) = 0 := rfl

theorem sumLens_cons {α : Type} (x : List α) (l : List (List α)) :
    sumLens (x :: l) = x.length + sumLens l := by
  simp [sumLens]

theorem sumLens_append {α : Type} (l₁ l₂ : List (List α)) :
    sumLens (l₁ ++ l₂) = sumLens l₁ + sumLens l₂ := by
  simp [sumLens]

theorem jsJoin_length {α : Type} (sep : List α) (l : List (List α)) :
    (jsJoin sep l).length = sumLens l + sep.length * (l.length - 1) := by
  induction l with
  | nil => simp [jsJoin, sumLens]
  | cons x t ih =>
    cases t with
    | nil => simp [jsJoin, sumLens]
    | cons y ys =>
      have h1 : (y :: ys).length - 1 = ys.length := by simp
      have h2 : (x :: y :: ys).length - 1 = ys.length + 1 := by simp
      rw [h2]
      simp only [jsJoin, List.length_append]
      rw [ih, h1]
      simp only [sumLens_cons]
      ring

theorem stableInsert_perm {α : Type} (le : α → α → Bool) (x : α) (l : List α) :
    (stableInsert le x l).Perm (x :: l) := by
  induction l with
  | nil => simp [stableInsert]
  | cons y ys ih =>
    by_cases h : le x y = true
    · simp [stableInsert, h]
    · simp only [stableInsert, h, if_false]
      exact ((ih.cons y).trans (List.Perm.swap x y ys))

theorem stableSort_perm {α : Type} (le : α → α → Bool) (l : List α) :
    (stableSort le l).Perm l := by
  induction l with
  | nil => simp [stableSort]
  | cons x xs ih =>
    exact (stableInsert_perm le x (stableSort le xs)).trans (ih.cons x)

/-!
Claim theorems.
-/

/-- C1. Identity: for every document content and every `maxLen`, if the
content length is at most `maxLen`, then both the prose extractor
`smartTruncateReadme` (for any regex-match oracle) and the source-code
extractor `smartTruncatePython` return the content exactly unchanged. -/
theorem identity_extract (content : List Char) (maxLen : Int)
    (matchess : List (List (List Char)))
    (h : (content.length : Int) ≤ maxLen) :
    smartTruncateReadme content maxLen matchess = content ∧
    smartTruncatePython content maxLen = content := by
  constructor
  · rw [smartTruncateReadme, if_pos (Or.inr h)]
  · rw [smartTruncatePython, if_pos (Or.inr h)]

theorem identity_extract_witness :
    ((("abc".data).length : Int) ≤ 5) ∧
    smartTruncateReadme ("abc".data) 5 [] = "abc".data ∧
    smartTruncatePython ("abc".data) 5 = "abc".data :=
  ⟨by decide, identity_extract ("abc".data) 5 [] (by decide)⟩

/-!
Lemmas about the import scan and the entry scan.
-/

theorem collectImportsGo_no_imports (lines : List (List Char)) (i : Nat)
    (h : ∀ l ∈ lines, isImportLine l = false) :
    collectImportsGo lines i [] 0 = ([], 0) := by
  induction lines generalizing i with
  | nil => rfl
  | cons l rest ih =>
    have hl : isImportLine l = false := h l (by simp)
    rw [collectImportsGo]
    simp only [hl, if_false, List.isEmpty_nil, Bool.not_true, Bool.false_and,
      Bool.false_eq_true]
    exact ih (i + 1) (fun x hx => h x (by simp [hx]))

theorem collectImports_no_imports (lines : List (List Char))
    (h : ∀ l ∈ lines, isImportLine l = false) :
    collectImports lines = ([], 0) :=
  collectImportsGo_no_imports lines 0 h

theorem findEntry_eq_none (lines : List (List Char))
    (h : ∀ l ∈ lines, isEntryLine l = false) :
    findEntry lines = none := by
  induction lines with
  | nil => rfl
  | cons l rest ih =>
    rw [findEntry, ih (fun x hx => h x (List.mem_cons_of_mem _ hx))]
    simp [h l (List.mem_cons_self _ _)]

theorem readmeOuter_nonpos (intro : List Char)
    (matchess : List (List (List Char))) (b : Int) (hb : b ≤ 0) :
    readmeOuter intro matchess b = ([], b) := by
  cases matchess with
  | nil => rfl
  | cons ms rest => rw [readmeOuter, if_pos hb]

/-- C5. Totality and defined fallbacks: on every degenerate input named by
the specification — empty content, content already within budget, no
line of import style, no entry-signature line, nonpositive budget, empty
mapping — the extractors and the allocator return the defined fallback
value (identity, empty import block, head/tail handling, truncated
introduction, empty mapping) rather than failing; all three functions are
total Lean functions, so no input can raise. -/
theorem totality_fallbacks :
    (∀ (maxLen : Int) (matchess : List (List (List Char))),
      smartTruncateReadme [] maxLen matchess = [] ∧
      smartTruncatePython [] maxLen = []) ∧
    (∀ (content : List Char) (maxLen : Int)
        (matchess : List (List (List Char))),
      (content.length : Int) ≤ maxLen →
      smartTruncateReadme content maxLen matchess = content ∧
      smartTruncatePython content maxLen = content) ∧
    (∀ lines : List (List Char), (∀ l ∈ lines, isImportLine l = false) →
      (collectImports lines).1 = []) ∧
    (∀ lines : List (List Char), (∀ l ∈ lines, isEntryLine l = false) →
      findEntry lines = none) ∧
    (∀ (content : List Char) (maxLen : Int)
        (matchess : List (List (List Char))),
      content ≠ [] → maxLen ≤ 0 →
      smartTruncateReadme content maxLen matchess = jsSlice content 0 500) ∧
    (∀ (totalBudget : Int) (T : Option (List Char → Int → List Char)),
      truncateFilesByBudget [] totalBudget T = []) := by
  refine ⟨?_, ?_, ?_, ?_, ?_, ?_⟩
  · intro maxLen matchess
    constructor
    · rw [smartTruncateReadme, if_pos (Or.inl rfl)]
    · rw [smartTruncatePython, if_pos (Or.inl rfl)]
  · intro content maxLen matchess h
    exact identity_extract content maxLen matchess h
  · intro lines h
    rw [collectImports_no_imports lines h]
  · intro lines h
    exact findEntry_eq_none lines h
  · intro content maxLen matchess hne hml
    have hlen : 0 < content.length := List.length_pos.mpr hne
    have hguard : ¬(content = [] ∨ (content.length : Int) ≤ maxLen) := by
      push_neg
      exact ⟨hne, by omega⟩
    have hintro : 0 < (jsSlice content 0 500).length := by
      rw [jsSlice_zero, jsClampIdx_of_nonneg _ _ (by omega)]
      simp
      omega
    have hb : maxLen - ((jsSlice content 0 500).length : Int) ≤ 0 := by omega
    rw [smartTruncateReadme, if_neg hguard]
    show jsJoin readmeSep (jsSlice content 0 500 ::
        (readmeOuter (jsSlice content 0 500) matchess
          (maxLen - ((jsSlice content 0 500).length : Int))).1)
      = jsSlice content 0 500
    rw [readmeOuter_nonpos _ _ _ hb]
    rfl
  · intro totalBudget T
    rw [truncateFilesByBudget, if_pos rfl]

theorem totality_fallbacks_witness :
    smartTruncateReadme ("ab".data) (-3) [] = jsSlice ("ab".data) 0 500 ∧
    smartTruncatePython [] 7 = [] ∧
    truncateFilesByBudget [] (-5) none = [] :=
  ⟨totality_fallbacks.2.2.2.2.1 ("ab".data) (-3) [] (by decide) (by decide),
   (totality_fallbacks.1 7 []).2,
   totality_fallbacks.2.2.2.2.2 (-5) none⟩

/-- C10. Implicit first-line loss in the no-entry fallback: for every
content longer than `maxLen` with no import-style line and no
entry-signature line, `importEnd` remains `0`, so the head/tail fallback
builds its body from `lines.slice(0 + 1)` — the join of the lines from
index 1 onward — and the first line of the document is not part of the
material the output is assembled from. -/
theorem first_line_loss (content : List Char) (maxLen : Int)
    (hne : content ≠ []) (hlong : maxLen < (content.length : Int))
    (himp : ∀ l ∈ content.splitOn '\n', isImportLine l = false)
    (hent : ∀ l ∈ content.splitOn '\n', isEntryLine l = false) :
    (collectImports (content.splitOn '\n')).2 = 0 ∧
    smartTruncatePython content maxLen =
      jsJoin ['\n'] (pythonFront [] maxLen ++
        composeNoEntry (jsJoin ['\n'] ((content.splitOn '\n').drop 1))
          maxLen (pythonCurrentLen [] maxLen)) := by
  have hcoll : collectImports (content.splitOn '\n') = ([], 0) :=
    collectImports_no_imports _ himp
  have hfind : findEntry (content.splitOn '\n') = none :=
    findEntry_eq_none _ hent
  have hguard : ¬(content = [] ∨ (content.length : Int) ≤ maxLen) := by
    push_neg
    exact ⟨hne, by omega⟩
  refine ⟨by rw [hcoll], ?_⟩
  rw [smartTruncatePython, if_neg hguard, pythonTruncate]
  simp only [hcoll, hfind]
  rfl

theorem first_line_loss_witness :
    (collectImports (("aaa\nbbb\ncccc\ndd".data).splitOn '\n')).2 = 0 ∧
    smartTruncatePython ("aaa\nbbb\ncccc\ndd".data) 10 =
      jsJoin ['\n'] (pythonFront [] 10 ++
        composeNoEntry
          (jsJoin ['\n'] ((("aaa\nbbb\ncccc\ndd".data).splitOn '\n').drop 1))
          10 (pythonCurrentLen [] 10)) :=
  first_line_loss ("aaa\nbbb\ncccc\ndd".data) 10 (by decide) (by decide)
    (by decide) (by decide)

theorem findEntry_none_forall (lines : List (List Char))
    (h : findEntry lines = none) : ∀ l ∈ lines, isEntryLine l = false := by
  induction lines with
  | nil => simp
  | cons l rest ih =>
    rw [findEntry] at h
    cases hr : findEntry rest with
    | some j => rw [hr] at h; exact absurd h (by simp)
    | none =>
      rw [hr] at h
      by_cases hl : isEntryLine l = true
      · rw [if_pos hl] at h
        exact absurd h (by simp)
      · intro x hx
        rcases List.mem_cons.mp hx with hx | hx
        · subst hx
          simpa using hl
        · exact ih hr x hx

theorem findEntry_some_spec (lines : List (List Char)) (e : Nat)
    (h : findEntry lines = some e) :
    e < lines.length ∧ isEntryLine (lines.getD e []) = true ∧
    ∀ k, e < k → k < lines.length → isEntryLine (lines.getD k []) = false := by
  induction lines generalizing e with
  | nil => simp [findEntry] at h
  | cons l rest ih =>
    rw [findEntry] at h
    cases hr : findEntry rest with
    | some j =>
      rw [hr] at h
      have he : e = j + 1 := by
        have := Option.some.inj h
        omega
      subst he
      obtain ⟨h1, h2, h3⟩ := ih j hr
      refine ⟨by simpa using h1, by simpa using h2, ?_⟩
      intro k hk hklen
      cases k with
      | zero => omega
      | succ k' =>
        have := h3 k' (by omega) (by simpa using hklen)
        simpa using this
    | none =>
      rw [hr] at h
      by_cases hl : isEntryLine l = true
      · rw [if_pos hl] at h
        have he : e = 0 := by
          have := Option.some.inj h
          omega
        subst he
        refine ⟨by simp, by simpa using hl, ?_⟩
        intro k hk hklen
        cases k with
        | zero => omega
        | succ k' =>
          have hx : (rest.getD k' []) ∈ rest ∨ rest.getD k' [] = [] := by
            by_cases hkl : k' < rest.length
            · left
              rw [List.getD_eq_getElem _ _ hkl]
              exact List.getElem_mem hkl
            · right
              rw [List.getD_eq_default]
              omega
          rcases hx with hx | hx
          · simpa using findEntry_none_forall rest hr _ hx
          · rw [List.getD_cons_succ, hx]
            decide
      · rw [if_neg hl] at h
        exact absurd h (by simp)

/-- C6. Backward entry preference: for every source document longer than
`maxLen` containing two (or more) lines matching an entry signature,
`smartTruncatePython` selects the matching line `E` closest to
end-of-file — the first match of the backward scan, at or after the later
of the two given matches, with no match after it — and assembles its
output from `composeEntry`, whose retained context window is
`lines.slice(max(E - 20, importEnd + 1))`, running to end of file. -/
theorem backward_entry_preference (content : List Char) (maxLen : Int)
    (hne : content ≠ []) (hlong : maxLen < (content.length : Int))
    (i j : Nat) (hij : i < j) (hj : j < (content.splitOn '\n').length)
    (hei : isEntryLine ((content.splitOn '\n').getD i []) = true)
    (hej : isEntryLine ((content.splitOn '\n').getD j []) = true) :
    ∃ e, findEntry (content.splitOn '\n') = some e ∧ j ≤ e ∧
      isEntryLine ((content.splitOn '\n').getD e []) = true ∧
      (∀ k, e < k → k < (content.splitOn '\n').length →
        isEntryLine ((content.splitOn '\n').getD k []) = false) ∧
      smartTruncatePython content maxLen =
        jsJoin ['\n'] (pythonFront
            (jsJoin ['\n'] (collectImports (content.splitOn '\n')).1) maxLen ++
          composeEntry (content.splitOn '\n')
            (collectImports (content.splitOn '\n')).2 e maxLen
            (pythonCurrentLen
              (jsJoin ['\n'] (collectImports (content.splitOn '\n')).1)
              maxLen)) := by
  cases hfe : findEntry (content.splitOn '\n') with
  | none =>
    have := findEntry_none_forall _ hfe ((content.splitOn '\n').getD j [])
      (by rw [List.getD_eq_getElem _ _ hj]; exact List.getElem_mem hj)
    rw [this] at hej
    exact absurd hej (by simp)
  | some e =>
    obtain ⟨h1, h2, h3⟩ := findEntry_some_spec _ e hfe
    have hje : j ≤ e := by
      by_contra hc
      push_neg at hc
      have := h3 j hc hj
      rw [this] at hej
      exact absurd hej (by simp)
    have hguard : ¬(content = [] ∨ (content.length : Int) ≤ maxLen) := by
      push_neg
      exact ⟨hne, by omega⟩
    refine ⟨e, rfl, hje, h2, h3, ?_⟩
    rw [smartTruncatePython, if_neg hguard, pythonTruncate]
    simp only [hfe]

theorem backward_entry_preference_witness :
    ∃ e, findEntry (exContent.splitOn '\n') = some e ∧ 47 ≤ e ∧
      isEntryLine ((exContent.splitOn '\n').getD e []) = true ∧
      (∀ k, e < k → k < (exContent.splitOn '\n').length →
        isEntryLine ((exContent.splitOn '\n').getD k []) = false) ∧
      smartTruncatePython exContent 800 =
        jsJoin ['\n'] (pythonFront
            (jsJoin ['\n'] (collectImports (exContent.splitOn '\n')).1) 800 ++
          composeEntry (exContent.splitOn '\n')
            (collectImports (exContent.splitOn '\n')).2 e 800
            (pythonCurrentLen
              (jsJoin ['\n'] (collectImports (exContent.splitOn '\n')).1)
              800)) :=
  backward_entry_preference exContent 800 (by decide) (by decide) 29 47
    (by decide) (by decide) (by decide) (by decide)

/-- C7 (counterexample). The example scenario is realized by `exContent`
(50 lines, 5 import lines, `def run():` at line 30, the executable guard
at line 48, length above the budget 800), the output does contain the five import
lines and an elision marker, but it does not contain line 10 of the
file: the backward scan selects the guard at line 48, so the retained
window is lines 28-50, not lines 10-50 as the claim states. -/
theorem example_scenario_cex :
    exLines.length = 50 ∧
    exLines.getD 29 [] = "def run():".data ∧
    exLines.getD 47 [] = "if __name__ == \"__main__\": run()".data ∧
    (800 : Int) < (exContent.length : Int) ∧
    jsIncludes exLine10 exContent = true ∧
    exLines.getD 9 [] = exLine10 ∧
    jsIncludes (jsJoin ['\n'] (exLines.take 5))
      (smartTruncatePython exContent 800) = true ∧
    jsIncludes pyElision (smartTruncatePython exContent 800) = true ∧
    jsIncludes exLine10 (smartTruncatePython exContent 800) = false := by
  decide

/-- C7 (amended). In the example scenario the backward scan finds the
entry match closest to end-of-file (the guard at line 48, index 47), so
the output consists of the 5 import lines, an elision marker, and lines
28-50 of the file (the 20 lines before that match through end of file),
joined by newlines. -/
theorem example_scenario_amended :
    exContent.splitOn '\n' = exLines ∧
    findEntry exLines = some 47 ∧
    collectImports exLines = (exLines.take 5, 4) ∧
    smartTruncatePython exContent 800 =
      jsJoin ['\n'] [jsJoin ['\n'] (exLines.take 5), pyElision,
        jsJoin ['\n'] (exLines.drop 27)] := by
  decide

/-!
Characterization of the import scan, for C8.
-/

theorem collectImportsGo_fst_acc (lines : List (List Char)) (i : Nat)
    (acc : List (List Char)) (e : Nat) (hacc : acc ≠ []) :
    (collectImportsGo lines i acc e).1 =
      acc ++ List.filter isImportLine
        (List.takeWhile (fun l => isImportLine l || isBlankLine l) lines) := by
  induction lines generalizing i acc e with
  | nil => simp [collectImportsGo]
  | cons l rest ih =>
    have hne : acc.isEmpty = false := by
      simpa using hacc
    rw [collectImportsGo]
    by_cases himp : isImportLine l = true
    · rw [if_pos himp, ih (i + 1) (acc ++ [l]) i (by simp)]
      rw [List.takeWhile_cons, himp]
      simp [himp]
    · rw [if_neg himp]
      by_cases hbl : isBlankLine l = true
      · have hcond : (!acc.isEmpty && isBlankLine l) = true := by
          rw [hne, hbl]
          rfl
        rw [if_pos hcond, ih (i + 1) acc e hacc]
        rw [List.takeWhile_cons]
        have : (isImportLine l || isBlankLine l) = true := by
          rw [hbl]
          simp
        rw [this]
        simp [himp]
      · have himp' : isImportLine l = false := by
          simpa using himp
        have hbl' : isBlankLine l = false := by
          simpa using hbl
        have hcond : (!acc.isEmpty && isBlankLine l) = false := by
          rw [hbl']
          simp
        rw [if_neg (by simp [hcond]), if_pos (by simp [hne])]
        rw [List.takeWhile_cons]
        have : (isImportLine l || isBlankLine l) = false := by
          rw [himp', hbl']
          rfl
        rw [this]
        simp

theorem collectImportsGo_fst_empty (lines : List (List Char)) (i : Nat) :
    (collectImportsGo lines i [] 0).1 =
      List.filter isImportLine
        (List.takeWhile (fun l => isImportLine l || isBlankLine l)
          (List.dropWhile (fun l => !isImportLine l) lines)) := by
  induction lines generalizing i with
  | nil => simp [collectImportsGo]
  | cons l rest ih =>
    rw [collectImportsGo]
    by_cases himp : isImportLine l = true
    · rw [if_pos himp]
      have hnilapp : ([] : List (List Char)) ++ [l] = [l] := rfl
      rw [hnilapp, collectImportsGo_fst_acc rest (i + 1) [l] i (by simp)]
      rw [List.dropWhile_cons]
      simp only [himp, Bool.not_true, Bool.false_eq_true, if_false]
      rw [List.takeWhile_cons]
      simp [himp]
    · rw [if_neg himp]
      simp only [List.isEmpty_nil, Bool.not_true, Bool.false_and,
        Bool.false_eq_true, if_false]
      rw [ih (i + 1)]
      rw [List.dropWhile_cons]
      simp [himp]

/-- C8 (counterexample). A file whose first line is neither blank nor
an import-style line can still yield a non-empty collected preamble:
the scan of lines 74-84 skips any leading non-import lines while no import
has been collected yet, so the preamble does not have to start at the top
of the file, contradicting the claim's "for a file whose first non-blank
line is not an import-style line, the collected preamble is empty". -/
theorem import_preamble_cex :
    isImportLine ("# helper".data) = false ∧
    isBlankLine ("# helper".data) = false ∧
    (collectImports ["# helper".data, "import os".data, "x = 1".data]).1
      = ["import os".data] ∧
    List.isPrefixOf ("import os".data)
      (smartTruncatePython ("# helper\nimport os\nx = 1\ny = 2\nz = 3".data) 20)
      = true := by
  decide

/-- C8 (amended). The import block collected by `smartTruncatePython` is
the maximal run of import-style lines starting at the first import-style
line of the file (all lines before it, blank or not, are skipped without
being collected), tolerating interior blank lines and terminating at the
first line after it that is neither an import-style line nor blank; in
particular, for a file with no import-style line at all, the collected
preamble is empty. -/
theorem import_preamble_amended (lines : List (List Char)) :
    (collectImports lines).1 =
      List.filter isImportLine
        (List.takeWhile (fun l => isImportLine l || isBlankLine l)
          (List.dropWhile (fun l => !isImportLine l) lines)) ∧
    ((∀ l ∈ lines, isImportLine l = false) → (collectImports lines).1 = []) :=
  ⟨collectImportsGo_fst_empty lines 0,
   fun h => by rw [collectImports_no_imports lines h]⟩

theorem import_preamble_amended_witness :
    (collectImports
        ["# helper".data, "import a".data, [], "import b".data, "x".data]).1 =
      List.filter isImportLine
        (List.takeWhile (fun l => isImportLine l || isBlankLine l)
          (List.dropWhile (fun l => !isImportLine l)
            ["# helper".data, "import a".data, [], "import b".data,
              "x".data])) ∧
    (collectImports
        ["# helper".data, "import a".data, [], "import b".data, "x".data]).1 =
      ["import a".data, "import b".data] :=
  ⟨(import_preamble_amended
      ["# helper".data, "import a".data, [], "import b".data, "x".data]).1,
   by decide⟩

/-!
Lemmas about the readme keep rule, for C9.
-/

theorem readmeInner_mem_length (intro : List Char) (ms : List (List Char))
    (b : Int) (fr : List Char) (h : fr ∈ (readmeInner intro ms b).1) :
    100 < fr.length := by
  induction ms generalizing b with
  | nil => simp [readmeInner] at h
  | cons m rest ih =>
    rw [readmeInner] at h
    by_cases hb : b ≤ 0
    · rw [if_pos hb] at h
      simp at h
    · rw [if_neg hb] at h
      by_cases hinc : jsIncludes m intro = true
      · rw [if_pos hinc] at h
        exact ih b h
      · rw [if_neg hinc] at h
        by_cases hlen : 100 < (jsSlice m 0 b).length
        · rw [if_pos hlen] at h
          rcases List.mem_cons.mp h with hfr | hfr
          · rw [hfr]
            exact hlen
          · exact ih _ hfr
        · rw [if_neg hlen] at h
          exact ih b h

theorem readmeOuter_mem_length (intro : List Char)
    (matchess : List (List (List Char))) (b : Int) (fr : List Char)
    (h : fr ∈ (readmeOuter intro matchess b).1) : 100 < fr.length := by
  induction matchess generalizing b with
  | nil => simp [readmeOuter] at h
  | cons ms rest ih =>
    rw [readmeOuter] at h
    by_cases hb : b ≤ 0
    · rw [if_pos hb] at h
      simp at h
    · rw [if_neg hb] at h
      rcases List.mem_append.mp h with hfr | hfr
      · exact readmeInner_mem_length intro ms b fr hfr
      · exact ih _ hfr

theorem intro_length_500 (content : List Char)
    (hlen : 500 ≤ content.length) : (jsSlice content 0 500).length = 500 := by
  rw [jsSlice_zero, jsClampIdx_of_nonneg _ _ (by omega)]
  simp
  omega

/-- C9 (counterexample). A candidate match whose truncation has length
exactly 100 is discarded, not kept: the source keeps a fragment only when
`truncated.length > 100` (line 48), so with an 800-character document, a
budget of 700 and a single 100-character match not contained in the
introduction, the output is the bare 500-character introduction. -/
theorem keep_rule_cex :
    (700 : Int) < ((List.replicate 800 'a').length : Int) ∧
    jsIncludes (List.replicate 100 'b')
      (jsSlice (List.replicate 800 'a') 0 500) = false ∧
    (jsSlice (List.replicate 100 'b') 0 (700 - 500)).length = 100 ∧
    smartTruncateReadme (List.replicate 800 'a') 700
      [[List.replicate 100 'b']] = List.replicate 500 'a' := by
  decide

/-- C9 (amended). During prose extraction with truncation required, every
kept fragment has length strictly greater than 100; in particular a
fragment whose truncation to the remaining budget has length exactly 100
is discarded. For a single candidate match `m` not contained in the
introductory prefix, the output is the introduction followed by the
truncation of `m` to the remaining budget when that truncation is longer
than 100 characters, and the bare introduction otherwise; a match
contained in the introductory prefix is skipped. -/
theorem keep_rule_amended :
    (∀ (intro : List Char) (matchess : List (List (List Char))) (b : Int)
        (fr : List Char),
      fr ∈ (readmeOuter intro matchess b).1 → 100 < fr.length) ∧
    (∀ (content : List Char) (maxLen : Int) (m : List Char),
      maxLen < (content.length : Int) → 500 ≤ maxLen →
      jsIncludes m (jsSlice content 0 500) = false →
      smartTruncateReadme content maxLen [[m]] =
        (if 100 < (jsSlice m 0 (maxLen - 500)).length then
          jsJoin readmeSep [jsSlice content 0 500, jsSlice m 0 (maxLen - 500)]
        else jsSlice content 0 500)) ∧
    (∀ (content : List Char) (maxLen : Int) (m : List Char),
      maxLen < (content.length : Int) → 500 ≤ maxLen →
      jsIncludes m (jsSlice content 0 500) = true →
      smartTruncateReadme content maxLen [[m]] = jsSlice content 0 500) := by
  refine ⟨readmeOuter_mem_length, ?_, ?_⟩
  · intro content maxLen m hlong h500 hinc
    have hlen : 500 ≤ content.length := by omega
    have hne : content ≠ [] := by
      intro hc
      rw [hc] at hlen
      simp at hlen
    have hguard : ¬(content = [] ∨ (content.length : Int) ≤ maxLen) := by
      push_neg
      exact ⟨hne, by omega⟩
    have hintro : (jsSlice content 0 500).length = 500 :=
      intro_length_500 content hlen
    rw [smartTruncateReadme, if_neg hguard]
    show jsJoin readmeSep (jsSlice content 0 500 ::
        (readmeOuter (jsSlice content 0 500) [[m]]
          (maxLen - ((jsSlice content 0 500).length : Int))).1) = _
    rw [hintro]
    by_cases hb : maxLen - (500 : Nat) ≤ 0
    · have hml : maxLen = 500 := by omega
      rw [readmeOuter_nonpos _ _ _ hb]
      have : (jsSlice m 0 (maxLen - 500)).length = 0 := by
        have h0 : maxLen - 500 = 0 := by omega
        rw [h0, jsSlice_zero, jsClampIdx_of_nonneg _ _ (by omega)]
        simp
      rw [if_neg (by omega)]
      rfl
    · rw [readmeOuter, if_neg hb, readmeInner, if_neg hb, if_neg (by
        simp [hinc])]
      have hcast : (maxLen - ((500 : Nat) : Int)) = maxLen - 500 := by
        push_cast
        ring
      by_cases hkeep : 100 < (jsSlice m 0 (maxLen - ((500 : Nat) : Int))).length
      · rw [if_pos hkeep]
        rw [hcast] at hkeep ⊢
        rw [if_pos hkeep]
        rfl
      · rw [if_neg hkeep]
        rw [hcast] at hkeep
        rw [if_neg hkeep]
        rfl
  · intro content maxLen m hlong h500 hinc
    have hlen : 500 ≤ content.length := by omega
    have hne : content ≠ [] := by
      intro hc
      rw [hc] at hlen
      simp at hlen
    have hguard : ¬(content = [] ∨ (content.length : Int) ≤ maxLen) := by
      push_neg
      exact ⟨hne, by omega⟩
    rw [smartTruncateReadme, if_neg hguard]
    show jsJoin readmeSep (jsSlice content 0 500 ::
        (readmeOuter (jsSlice content 0 500) [[m]]
          (maxLen - ((jsSlice content 0 500).length : Int))).1) = _
    by_cases hb : maxLen - ((jsSlice content 0 500).length : Int) ≤ 0
    · rw [readmeOuter_nonpos _ _ _ hb]
      rfl
    · rw [readmeOuter, if_neg hb, readmeInner, if_neg hb, if_pos hinc,
        readmeInner]
      rfl

theorem keep_rule_amended_witness :
    smartTruncateReadme (List.replicate 800 'a') 700
        [[List.replicate 150 'b']] =
      (if 100 < (jsSlice (List.replicate 150 'b') 0 (700 - 500)).length then
        jsJoin readmeSep [jsSlice (List.replicate 800 'a') 0 500,
          jsSlice (List.replicate 150 'b') 0 (700 - 500)]
      else jsSlice (List.replicate 800 'a') 0 500) :=
  keep_rule_amended.2.1 (List.replicate 800 'a') 700 (List.replicate 150 'b')
    (by decide) (by decide) (by decide)

/-!
Lemmas about the budget allocator, for C3 and C4.
-/

theorem truncGo_id (pfb : Int) (files : List (List Char × List Char))
    (remaining : Int)
    (hsum : ((sumLens (files.map Prod.snd) : Nat) : Int) < remaining)
    (hcap : ∀ p ∈ files, ((p.2.length : Nat) : Int) ≤ max pfb 500) :
    truncGo none pfb files remaining = files := by
  induction files generalizing remaining with
  | nil => rfl
  | cons p rest ih =>
    obtain ⟨n, c⟩ := p
    have hsum' : sumLens (((n, c) :: rest).map Prod.snd) =
        c.length + sumLens (rest.map Prod.snd) := by
      simp [sumLens]
    rw [hsum'] at hsum
    have hr : ¬(remaining ≤ 0) := by
      push_cast at hsum
      omega
    have hclen : ((c.length : Nat) : Int) ≤ min remaining (max pfb 500) := by
      have h1 := hcap (n, c) (by simp)
      simp only at h1
      push_cast at hsum ⊢
      omega
    have hslice : jsSlice c 0 (min remaining (max pfb 500)) = c :=
      jsSlice_zero_of_le _ _ hclen
    simp only [truncGo]
    rw [if_neg hr, hslice]
    have ihh : truncGo none pfb rest (remaining - (c.length : Int)) = rest := by
      apply ih
      · push_cast at hsum ⊢
        omega
      · intro p hp
        exact hcap p (List.mem_cons_of_mem _ hp)
    rw [ihh]

theorem sumLens_perm {α : Type} (l₁ l₂ : List (List α)) (h : l₁.Perm l₂) :
    sumLens l₁ = sumLens l₂ :=
  List.Perm.sum_eq (h.map List.length)

/-- C3 (counterexample). Conservation fails: with documents of sizes 1 and
501 and a budget of 503 (total raw size 502 < 503), the larger document is
allocated only `max(floor(503/2), 500) = 500` characters even though 502
characters of budget remain, so the sum of excerpt lengths is 501, not
502. -/
theorem alloc_conservation_cex :
    ([(("a".data : List Char), ("x".data : List Char)),
        ("b".data, List.replicate 501 'y')] ≠ []) ∧
    ((sumLens (([(("a".data : List Char), ("x".data : List Char)),
        ("b".data, List.replicate 501 'y')]).map Prod.snd) : Nat) : Int)
      < 503 ∧
    sumLens ((truncateFilesByBudget
        [("a".data, "x".data), ("b".data, List.replicate 501 'y')] 503
        none).map Prod.snd) = 501 ∧
    sumLens (([(("a".data : List Char), ("x".data : List Char)),
        ("b".data, List.replicate 501 'y')]).map Prod.snd) = 502 := by
  decide

/-- C3 (amended). For every non-empty document mapping whose total raw
content length is less than the category budget and in which every
document's length is at most `max(floor(B/n), 500)` (the per-document
allocation cap), `truncateFilesByBudget` with the default plain-slice
truncation returns every document unchanged (up to the stable reordering
by ascending length), and the sum of excerpt lengths equals the sum of raw
content lengths. -/
theorem alloc_conservation_amended (files : List (List Char × List Char))
    (B : Int) (hne : files ≠ [])
    (hsum : ((sumLens (files.map Prod.snd) : Nat) : Int) < B)
    (hcap : ∀ p ∈ files, ((p.2.length : Nat) : Int) ≤
      max (Int.ediv B (files.length : Int)) 500) :
    (truncateFilesByBudget files B none).Perm files ∧
    sumLens ((truncateFilesByBudget files B none).map Prod.snd) =
      sumLens (files.map Prod.snd) := by
  have hperm : (sortByLen files).Perm files := by
    unfold sortByLen
    exact stableSort_perm _ files
  have hlen : (sortByLen files).length = files.length := hperm.length_eq
  have hsum2 : sumLens ((sortByLen files).map Prod.snd) =
      sumLens (files.map Prod.snd) :=
    sumLens_perm _ _ (hperm.map Prod.snd)
  have hid : truncGo none (Int.ediv B (((sortByLen files).length : Int)))
      (sortByLen files) B = sortByLen files := by
    apply truncGo_id
    · rw [hsum2]
      exact hsum
    · intro p hp
      rw [hlen]
      exact hcap p (hperm.mem_iff.mp hp)
  rw [truncateFilesByBudget, if_neg hne]
  simp only
  rw [hid]
  exact ⟨hperm, hsum2⟩

theorem alloc_conservation_amended_witness :
    (truncateFilesByBudget [(("a".data : List Char), ("x".data : List Char)),
        ("b".data, "yy".data)] 10 none).Perm
      [("a".data, "x".data), ("b".data, "yy".data)] ∧
    sumLens ((truncateFilesByBudget [(("a".data : List Char),
        ("x".data : List Char)), ("b".data, "yy".data)] 10 none).map
        Prod.snd) =
      sumLens (([(("a".data : List Char), ("x".data : List Char)),
        ("b".data, "yy".data)]).map Prod.snd) :=
  alloc_conservation_amended
    [("a".data, "x".data), ("b".data, "yy".data)] 10 (by decide) (by decide)
    (by decide)

theorem truncGo_sum_le (f : List Char → Int → List Char)
    (hT : ∀ c m, 0 < m → (((f c m).length : Nat) : Int) ≤ m)
    (pfb : Int) (files : List (List Char × List Char)) (r : Int)
    (hr : 0 ≤ r) :
    ((sumLens ((truncGo (some f) pfb files r).map Prod.snd) : Nat) : Int)
      ≤ r := by
  induction files generalizing r with
  | nil => simpa [truncGo, sumLens] using hr
  | cons p rest ih =>
    obtain ⟨n, c⟩ := p
    simp only [truncGo]
    by_cases h0 : r ≤ 0
    · rw [if_pos h0]
      simpa [sumLens] using hr
    · rw [if_neg h0]
      have hb : 0 < min r (max pfb 500) := by
        omega
      have hex := hT c (min r (max pfb 500)) hb
      have ihh := ih (r - ((f c (min r (max pfb 500))).length : Int))
        (by omega)
      simp only [List.map_cons, sumLens_cons]
      push_cast at ihh ⊢
      omega

/-- C4. Budget-plan invariant: for every nonnegative category budget `B`
and every document set, if the supplied truncation function `T` returns an
excerpt of length at most `m` for every positive allocation `m`, then the
per-document allocations `min(remaining, max(floor(B/n), 500))` made by
`truncateFilesByBudget` keep the sum of produced excerpt lengths at most
`B`, the floor-minimum relaxation notwithstanding. -/
theorem budget_plan_invariant (files : List (List Char × List Char))
    (B : Int) (f : List Char → Int → List Char) (hB : 0 ≤ B)
    (hT : ∀ c m, 0 < m → (((f c m).length : Nat) : Int) ≤ m) :
    ((sumLens ((truncateFilesByBudget files B (some f)).map Prod.snd) : Nat)
      : Int) ≤ B := by
  rw [truncateFilesByBudget]
  by_cases hne : files = []
  · rw [if_pos hne]
    simpa [sumLens] using hB
  · rw [if_neg hne]
    exact truncGo_sum_le f hT _ _ B hB

theorem budget_plan_invariant_witness :
    ((sumLens ((truncateFilesByBudget
        [(("a".data : List Char), List.replicate 600 'y')] 550
        (some (fun c m => jsSlice c 0 m))).map Prod.snd) : Nat) : Int)
      ≤ 550 :=
  budget_plan_invariant [("a".data, List.replicate 600 'y')] 550
    (fun c m => jsSlice c 0 m) (by decide)
    (fun c m hm => jsSlice_zero_length_le c m (le_of_lt hm))

/-!
Budget-accounting lemmas for the length bound, C2.
-/

theorem ediv_as_div (a b : Int) : Int.ediv a b = a / b := rfl

theorem readmeInner_budget_spec (intro : List Char) (ms : List (List Char))
    (b : Int) (hb : 0 ≤ b) :
    0 ≤ (readmeInner intro ms b).2 ∧
    ((sumLens (readmeInner intro ms b).1 : Nat) : Int)
      = b - (readmeInner intro ms b).2 ∧
    101 * (readmeInner intro ms b).1.length
      ≤ sumLens (readmeInner intro ms b).1 := by
  induction ms generalizing b with
  | nil =>
    simp only [readmeInner, sumLens_nil, List.length_nil]
    refine ⟨hb, by omega, by omega⟩
  | cons m rest ih =>
    simp only [readmeInner]
    split_ifs with h1 h2 h3
    · simp only [sumLens_nil, List.length_nil]
      refine ⟨hb, by omega, by omega⟩
    · exact ih b hb
    · have hlen : ((jsSlice m 0 b).length : Int) ≤ b :=
        jsSlice_zero_length_le m b hb
      obtain ⟨i1, i2, i3⟩ := ih (b - ((jsSlice m 0 b).length : Int)) (by omega)
      simp only [sumLens_cons, List.length_cons]
      refine ⟨i1, ?_, ?_⟩
      · push_cast
        omega
      · omega
    · exact ih b hb

theorem readmeOuter_budget_spec (intro : List Char)
    (matchess : List (List (List Char))) (b : Int) (hb : 0 ≤ b) :
    0 ≤ (readmeOuter intro matchess b).2 ∧
    ((sumLens (readmeOuter intro matchess b).1 : Nat) : Int)
      = b - (readmeOuter intro matchess b).2 ∧
    101 * (readmeOuter intro matchess b).1.length
      ≤ sumLens (readmeOuter intro matchess b).1 := by
  induction matchess generalizing b with
  | nil =>
    simp only [readmeOuter, sumLens_nil, List.length_nil]
    refine ⟨hb, by omega, by omega⟩
  | cons ms rest ih =>
    simp only [readmeOuter]
    split_ifs with h1
    · simp only [sumLens_nil, List.length_nil]
      refine ⟨hb, by omega, by omega⟩
    · obtain ⟨a1, a2, a3⟩ := readmeInner_budget_spec intro ms b hb
      obtain ⟨b1, b2, b3⟩ := ih (readmeInner intro ms b).2 a1
      simp only [sumLens_append, List.length_append]
      refine ⟨b1, ?_, ?_⟩
      · push_cast at a2 b2 ⊢
        omega
      · omega

theorem readme_join_bound (intro : List Char)
    (matchess : List (List (List Char))) (maxLen : Int)
    (hintro : intro.length = 500) (h500 : 500 ≤ maxLen) :
    ((jsJoin readmeSep (intro ::
        (readmeOuter intro matchess
          (maxLen - (intro.length : Int))).1)).length : Int)
      ≤ maxLen + 7 * Int.ediv (maxLen - 500) 101 := by
  have hb0 : 0 ≤ maxLen - (intro.length : Int) := by
    rw [hintro]
    push_cast
    omega
  obtain ⟨s1, s2, s3⟩ := readmeOuter_budget_spec intro matchess
    (maxLen - (intro.length : Int)) hb0
  rw [jsJoin_length]
  have hsep : (readmeSep : List Char).length = 7 := by decide
  rw [hsep]
  simp only [sumLens_cons, List.length_cons]
  rw [hintro] at s1 s2 s3 ⊢
  rw [ediv_as_div]
  push_cast at s1 s2 s3 ⊢
  omega

theorem smartTruncateReadme_length_le (content : List Char) (maxLen : Int)
    (matchess : List (List (List Char))) (h500 : 500 ≤ maxLen) :
    ((smartTruncateReadme content maxLen matchess).length : Int)
      ≤ maxLen + 7 * Int.ediv (maxLen - 500) 101 := by
  have hdivpos : 0 ≤ Int.ediv (maxLen - 500) 101 := by
    rw [ediv_as_div]
    omega
  rw [smartTruncateReadme]
  split_ifs with hguard
  · rcases hguard with h | h
    · rw [h]
      simp
      omega
    · omega
  · push_neg at hguard
    obtain ⟨hne, hlt⟩ := hguard
    have hlen5 : 500 ≤ content.length := by omega
    have hintro : (jsSlice content 0 500).length = 500 :=
      intro_length_500 content hlen5
    exact readme_join_bound (jsSlice content 0 500) matchess maxLen hintro h500

theorem pyElision_length : (pyElision : List Char).length = 20 := by decide

theorem composeEntry_parts_bound (es : List Char) (gap : Bool)
    (maxLen currentLen : Int) (hc0 : 0 ≤ currentLen)
    (hcm : currentLen ≤ maxLen) :
    ((sumLens ((if currentLen + (es.length : Int) ≤ maxLen then
        (if gap = true then [pyElision] else []) ++ [es]
      else if 0 < maxLen - currentLen - 50 then
        [pyElision, jsSliceFrom es (-(maxLen - currentLen - 50))]
      else []) : List (List Char)) : Nat) : Int) + currentLen
      ≤ maxLen + 20 ∧
    ((if currentLen + (es.length : Int) ≤ maxLen then
        (if gap = true then [pyElision] else []) ++ [es]
      else if 0 < maxLen - currentLen - 50 then
        [pyElision, jsSliceFrom es (-(maxLen - currentLen - 50))]
      else []) : List (List Char)).length ≤ 3 := by
  split_ifs with h1 h2 h3
  · simp only [List.cons_append, List.nil_append, sumLens_cons, sumLens_nil,
      List.length_cons, List.length_nil, pyElision_length]
    exact ⟨by push_cast; omega, by omega⟩
  · simp only [List.nil_append, sumLens_cons, sumLens_nil, List.length_cons,
      List.length_nil]
    exact ⟨by push_cast; omega, by omega⟩
  · have htail := jsSliceFrom_neg_length_le es (maxLen - currentLen - 50) h3
    simp only [sumLens_cons, sumLens_nil, List.length_cons, List.length_nil,
      pyElision_length]
    exact ⟨by push_cast at htail ⊢; omega, by omega⟩
  · simp only [sumLens_nil, List.length_nil]
    exact ⟨by push_cast; omega, by omega⟩

theorem composeEntry_bound (lines : List (List Char)) (importEnd e : Nat)
    (maxLen currentLen : Int) (hc0 : 0 ≤ currentLen)
    (hcm : currentLen ≤ maxLen) :
    ((sumLens (composeEntry lines importEnd e maxLen currentLen) : Nat) : Int)
        + currentLen ≤ maxLen + 20 ∧
    (composeEntry lines importEnd e maxLen currentLen).length ≤ 3 := by
  have hmain := composeEntry_parts_bound
    (jsJoin ['\n'] (jsSliceFrom lines
      (max ((e : Int) - 20) ((importEnd : Int) + 1))))
    (decide ((importEnd : Int) + 1 < max ((e : Int) - 20) ((importEnd : Int) + 1)))
    maxLen currentLen hc0 hcm
  have hce : composeEntry lines importEnd e maxLen currentLen =
      (if currentLen + ((jsJoin ['\n'] (jsSliceFrom lines
          (max ((e : Int) - 20) ((importEnd : Int) + 1)))).length : Int)
          ≤ maxLen then
        (if (decide ((importEnd : Int) + 1 <
            max ((e : Int) - 20) ((importEnd : Int) + 1))) = true
          then [pyElision] else []) ++
          [jsJoin ['\n'] (jsSliceFrom lines
            (max ((e : Int) - 20) ((importEnd : Int) + 1)))]
      else if 0 < maxLen - currentLen - 50 then
        [pyElision, jsSliceFrom (jsJoin ['\n'] (jsSliceFrom lines
            (max ((e : Int) - 20) ((importEnd : Int) + 1))))
          (-(maxLen - currentLen - 50))]
      else []) := by
    rw [composeEntry]
    simp only [decide_eq_true_eq]
  rw [hce]
  exact hmain

theorem composeNoEntry_bound (mc : List Char) (maxLen currentLen : Int)
    (hc0 : 0 ≤ currentLen) (hr2 : 2 ≤ maxLen - currentLen) :
    ((sumLens (composeNoEntry mc maxLen currentLen) : Nat) : Int) + currentLen
      ≤ maxLen + 20 ∧
    (composeNoEntry mc maxLen currentLen).length ≤ 3 := by
  simp only [composeNoEntry]
  split_ifs with h1
  · simp only [sumLens_cons, sumLens_nil, List.length_cons, List.length_nil]
    exact ⟨by push_cast at h1 ⊢; omega, by omega⟩
  · have htd : Int.tdiv (maxLen - currentLen) 2 = (maxLen - currentLen) / 2 :=
      Int.tdiv_eq_ediv (by omega) (by omega)
    have ha := jsSlice_zero_length_le mc (Int.tdiv (maxLen - currentLen) 2)
      (by rw [htd]; omega)
    have hbneg : Int.tdiv (-(maxLen - currentLen)) 2
        = -(Int.tdiv (maxLen - currentLen) 2) := Int.neg_tdiv _ _
    have hb := jsSliceFrom_neg_length_le mc
      (Int.tdiv (maxLen - currentLen) 2) (by rw [htd]; omega)
    rw [hbneg]
    simp only [sumLens_cons, sumLens_nil, List.length_cons, List.length_nil,
      pyElision_length]
    rw [htd] at ha hb
    rw [htd]
    refine ⟨?_, by omega⟩
    push_cast at ha hb ⊢
    omega

theorem pythonFront_spec (IS : List Char) (maxLen : Int)
    (h500 : 500 ≤ maxLen) :
    ((sumLens (pythonFront IS maxLen) : Nat) : Int)
      = pythonCurrentLen IS maxLen ∧
    (pythonFront IS maxLen).length ≤ 1 ∧
    0 ≤ pythonCurrentLen IS maxLen ∧
    pythonCurrentLen IS maxLen ≤ maxLen ∧
    2 ≤ maxLen - pythonCurrentLen IS maxLen := by
  rw [pythonFront, pythonCurrentLen]
  split_ifs with h
  · rw [ediv_as_div] at h
    simp only [sumLens_cons, sumLens_nil, List.length_cons, List.length_nil]
    refine ⟨by push_cast; try omega, by omega, by push_cast; try omega,
      by push_cast at h ⊢; omega, by push_cast at h ⊢; omega⟩
  · simp only [sumLens_nil, List.length_nil]
    refine ⟨by push_cast; try omega, by omega, by omega, by omega, by omega⟩

theorem python_assemble_bound (front rest : List (List Char))
    (maxLen cl : Int)
    (hfs : ((sumLens front : Nat) : Int) = cl) (hfc : front.length ≤ 1)
    (hrs : ((sumLens rest : Nat) : Int) + cl ≤ maxLen + 20)
    (hrc : rest.length ≤ 3) :
    ((jsJoin ['\n'] (front ++ rest)).length : Int) ≤ maxLen + 23 := by
  have hj := jsJoin_length (['\n'] : List Char) (front ++ rest)
  rw [sumLens_append, List.length_append] at hj
  have h1 : (['\n'] : List Char).length = 1 := rfl
  rw [h1] at hj
  rw [hj]
  push_cast
  omega

theorem pythonTruncate_length_le (content : List Char) (maxLen : Int)
    (h500 : 500 ≤ maxLen) :
    ((pythonTruncate content maxLen).length : Int) ≤ maxLen + 23 := by
  obtain ⟨f1, f2, f3, f4, f5⟩ := pythonFront_spec
    (jsJoin ['\n'] (collectImports (content.splitOn '\n')).1) maxLen h500
  cases hfe : findEntry (content.splitOn '\n') with
  | some e =>
    simp only [pythonTruncate, hfe]
    obtain ⟨r1, r2⟩ := composeEntry_bound (content.splitOn '\n')
      (collectImports (content.splitOn '\n')).2 e maxLen
      (pythonCurrentLen
        (jsJoin ['\n'] (collectImports (content.splitOn '\n')).1) maxLen)
      f3 f4
    exact python_assemble_bound _ _ maxLen _ f1 f2 r1 r2
  | none =>
    simp only [pythonTruncate, hfe]
    obtain ⟨r1, r2⟩ := composeNoEntry_bound
      (jsJoin ['\n'] ((content.splitOn '\n').drop
        ((collectImports (content.splitOn '\n')).2 + 1))) maxLen
      (pythonCurrentLen
        (jsJoin ['\n'] (collectImports (content.splitOn '\n')).1) maxLen)
      f3 f5
    exact python_assemble_bound _ _ maxLen _ f1 f2 r1 r2

/-- C2. Bound: for every document content and every `maxLen ≥ 500` (the
floor minimum), the output length of `smartTruncateReadme` exceeds
`maxLen` by at most the total size of the inserted elision markers — the
7-character separator once per kept fragment, of which there are at most
`(maxLen - 500) / 101` since each kept fragment consumes more than 100
characters of budget — and the output length of `smartTruncatePython`
exceeds `maxLen` by at most 23 (one 20-character elision marker plus at
most three newline join separators). -/
theorem bound_extract (content : List Char) (maxLen : Int)
    (matchess : List (List (List Char))) (h500 : 500 ≤ maxLen) :
    ((smartTruncateReadme content maxLen matchess).length : Int)
      ≤ maxLen + 7 * Int.ediv (maxLen - 500) 101 ∧
    ((smartTruncatePython content maxLen).length : Int) ≤ maxLen + 23 := by
  refine ⟨smartTruncateReadme_length_le content maxLen matchess h500, ?_⟩
  rw [smartTruncatePython]
  split_ifs with h
  · rcases h with h | h
    · rw [h]
      simp
      omega
    · omega
  · exact pythonTruncate_length_le content maxLen h500

theorem bound_extract_witness :
    ((smartTruncateReadme (List.replicate 600 'a') 500 []).length : Int)
      ≤ 500 + 7 * Int.ediv (500 - 500) 101 ∧
    ((smartTruncatePython (List.replicate 600 'a') 500).length : Int)
      ≤ 500 + 23 :=
  bound_extract (List.replicate 600 'a') 500 [] (by decide)
